import Mathlib

/-!
# Verification of the kb retrieval-augmented knowledge service

Shallow embedding, in Lean 4, of the parts of the `kb` repository that the
specification's testable claims are about, together with proofs (or
refutations) of those claims.

Conventions used throughout:

* Rust `f32` scores are modelled as `ℚ` wherever the code only adds,
  multiplies, divides and compares them (fusion, deduplication, thresholds);
  the ranking facts proved here are robust: the exact rational values involved
  are far apart relative to `f32` rounding error.  The two `cosine_similarity`
  functions, which also take square roots, are modelled over `ℝ`.
* Rust `HashMap` accumulation in `fuse_results` is modelled by grouping keys
  in order of first occurrence; the per-key totals are iteration-order
  independent, and no theorem below depends on the order of equal fused
  scores (which the Rust code leaves to `HashMap` iteration order).
* Stateful handlers (`admin_jobs_create`, `session_tool_result`,
  `session_stream`, the `pdf_glob` branch of `run_job_once`, the extractor
  retry loop) are modelled as pure state-passing functions; the external
  world (fresh UUIDs, clocks, HTTP responses, the model's streamed chunks,
  the extraction service) enters as explicit parameters.
-/

namespace Kb

/-! ## Core data model (crates/kb-core/src/lib.rs) -/

/-- `kb_core::Citation`; `score : f32` is modelled as `ℚ`. -/
structure Citation where
  document_id : String
  chunk_id : String
  page : Option Int
  score : ℚ
  snippet : String
  deriving DecidableEq, Repr

/-- `kb_core::QueryResponse`. -/
structure QueryResponse where
  answer : String
  citations : List Citation
  contexts : List String
  mode : String
  latency_ms : Int
  deriving DecidableEq, Repr

/-! ## Hybrid fusion engine (crates/kb-rag/src/hybrid.rs) -/

/-- The dedup / fusion key `format!("{}#{}", document_id, chunk_id)`
(hybrid.rs lines 286 and 353). -/
def fuseKey (c : Citation) : String := c.document_id ++ "#" ++ c.chunk_id

/-- `FusionStrategy` (hybrid.rs). -/
inductive FusionStrategy where
  | weightedSum
  | rrf (k : ℚ)
  | combSum
  | combMNZ
  deriving DecidableEq, Repr

/-- `ScoreNormalization` (hybrid.rs). -/
inductive ScoreNormalization where
  | none
  | minMax
  | zScore
  | rank
  deriving DecidableEq, Repr

/-- `HybridConfig` (hybrid.rs). -/
structure HybridConfig where
  vector_weight : ℚ
  lexical_weight : ℚ
  graph_weight : ℚ
  retrieval_multiplier : ℚ
  final_top_k : Nat
  score_normalization : ScoreNormalization
  fusion_strategy : FusionStrategy
  min_score_threshold : ℚ
  enable_deduplication : Bool
  deriving Repr

/-- `EngineResult` (hybrid.rs): a citation tagged with the backend that
returned it and its rank in that backend's result list. -/
structure EngineResult where
  citation : Citation
  engine_type : String
  original_rank : Nat
  normalized_score : ℚ
  deriving DecidableEq, Repr

/-- The per-backend weight lookup inside `fuse_results` (hybrid.rs 288-293). -/
def engineWeight (cfg : HybridConfig) (t : String) : ℚ :=
  if t = "vector" then cfg.vector_weight
  else if t = "lexical" then cfg.lexical_weight
  else if t = "graph" then cfg.graph_weight
  else 1

/-- The per-result score contribution inside `fuse_results` (hybrid.rs
300-313).  For `RRF { k }` the contribution is
`weight / (k + rank + 1)`; `normalized_score` is ignored by RRF. -/
def contribution (cfg : HybridConfig) (r : EngineResult) : ℚ :=
  match cfg.fusion_strategy with
  | .weightedSum => r.normalized_score * engineWeight cfg r.engine_type
  | .rrf k => engineWeight cfg r.engine_type / (k + (r.original_rank : ℚ) + 1)
  | .combSum => r.normalized_score
  | .combMNZ => r.normalized_score * engineWeight cfg r.engine_type

/-- Worker for `fusionKeys`: collects fusion keys in first-occurrence
order, skipping keys already `seen`. -/
def keysGo (seen : List String) : List EngineResult → List String
  | [] => []
  | r :: rest =>
    if fuseKey r.citation ∈ seen then keysGo seen rest
    else fuseKey r.citation :: keysGo (fuseKey r.citation :: seen) rest

/-- The keys of the `HashMap` built by `fuse_results`, enumerated in first
insertion order (a deterministic stand-in for Rust's arbitrary `HashMap`
iteration order; per-key totals do not depend on it). -/
def fusionKeys (rs : List EngineResult) : List String :=
  keysGo [] rs

/-- Total fused score accumulated for key `k` (hybrid.rs 295-315). -/
def groupTotal (cfg : HybridConfig) (rs : List EngineResult) (k : String) : ℚ :=
  ((rs.filter (fun r => fuseKey r.citation = k)).map (contribution cfg)).sum

/-- Number of contributions pushed onto `engines` for key `k`
(hybrid.rs 316); used by the CombMNZ multiplier (hybrid.rs 325-329). -/
def groupCount (rs : List EngineResult) (k : String) : Nat :=
  (rs.filter (fun r => fuseKey r.citation = k)).length

/-- The representative citation kept for key `k`: starting from the first
occurrence, replaced whenever a later occurrence has a strictly greater
`citation.score` (hybrid.rs 295-297 and 318-321). -/
def groupRep (rs : List EngineResult) (k : String) : Citation :=
  match rs.filter (fun r => fuseKey r.citation = k) with
  | [] => ⟨"", "", none, 0, ""⟩
  | r :: tail =>
    tail.foldl (fun acc r' => if r'.citation.score > acc.score then r'.citation else acc) r.citation

/-- Stable insertion into a list sorted by strictly descending score;
models Rust's stable `sort_by(|a, b| b.score.partial_cmp(&a.score))`
(hybrid.rs 344): an element inserted from the left stays in front of
equal-scored elements. -/
def insertDesc (c : Citation) : List Citation → List Citation
  | [] => [c]
  | d :: ds => if c.score ≥ d.score then c :: d :: ds else d :: insertDesc c ds

/-- Stable descending sort by score (hybrid.rs 344).  `ℚ` is totally
ordered, so the `partial_cmp ... unwrap_or(Equal)` fallback never fires. -/
def sortByScoreDesc : List Citation → List Citation
  | [] => []
  | c :: cs => insertDesc c (sortByScoreDesc cs)

/-- `HybridRagEngine::fuse_results` (hybrid.rs 282-347): group the engine
results by `document_id#chunk_id`, sum the strategy contribution per key
(times the match count for CombMNZ), keep the best-scored representative
citation with its score replaced by the fused score, drop keys below
`min_score_threshold`, and sort by descending fused score. -/
def fuse_results (cfg : HybridConfig) (rs : List EngineResult) : List Citation :=
  let combined := (fusionKeys rs).map (fun k =>
    let s := groupTotal cfg rs k
    let s := match cfg.fusion_strategy with
      | .combMNZ => s * (groupCount rs k : ℚ)
      | _ => s
    { groupRep rs k with score := s })
  let filtered := combined.filter (fun c => cfg.min_score_threshold ≤ c.score)
  sortByScoreDesc filtered

/-- Lines 142-162 of `perform_hybrid_search`: tag each backend's ranked
citations with the engine type and the rank (`enumerate`), with
`normalized_score` initialized to 0 (later overwritten by
`normalize_scores`, which touches nothing else). -/
def engineResultsOf (etype : String) (cits : List Citation) : List EngineResult :=
  cits.enum.map (fun p => ⟨p.2, etype, p.1, 0⟩)

/-- The worker of `deduplicate_results`: `seen` is the set of keys already
inserted into the Rust `HashSet` (hybrid.rs 350-357); `retain` keeps a
citation iff its key was not seen before, i.e. the first occurrence per key
survives. -/
def dedupGo (seen : List String) : List Citation → List Citation
  | [] => []
  | c :: rest =>
    if fuseKey c ∈ seen then dedupGo seen rest
    else c :: dedupGo (fuseKey c :: seen) rest

/-- `HybridRagEngine::deduplicate_results` (hybrid.rs 350-357). -/
def deduplicate_results (results : List Citation) : List Citation :=
  dedupGo [] results

/-- Steps 5-8 of `perform_hybrid_search` (hybrid.rs 186-214) for a
configuration without a reranker: fuse, dedup (when enabled), truncate to
`final_top_k`.  (Step 4, `normalize_scores`, only writes the
`normalized_score` fields; the theorems below quantify over those fields.) -/
def hybridPipeline (cfg : HybridConfig) (rs : List EngineResult) : List Citation :=
  let fused := fuse_results cfg rs
  let dd := if cfg.enable_deduplication then deduplicate_results fused else fused
  dd.take cfg.final_top_k

/-! ## Document chunker (apps/api/src/main.rs 1069-1109 `chunk_and_index`;
crates/kb-rag/src/lib.rs 319-363 `index_text_with_chunking`)

Both functions build the same chunk list: scan the whitespace-separated
words, append each word to a buffer with a single-space separator, emit
the buffer when adding the next word would push its byte length past
`chunk_size`, and seed the next buffer with the last `overlap` *characters*
of the emitted one.  They differ only in the final residue push:
`chunk_and_index` pushes when the residue is non-empty,
`index_text_with_chunking` when its trim is non-empty. -/

/-- Worker for `splitWhitespace`: splits a character list into the maximal
runs of non-whitespace characters (Rust `str::split_whitespace`
semantics).  `buf` holds the current run, reversed. -/
def splitWsChars (buf : List Char) : List Char → List (List Char)
  | [] => if buf = [] then [] else [buf.reverse]
  | c :: cs =>
    if c.isWhitespace then
      if buf = [] then splitWsChars [] cs else buf.reverse :: splitWsChars [] cs
    else splitWsChars (c :: buf) cs

/-- Rust `text.split_whitespace()`: the non-empty maximal whitespace-free
substrings, in order. -/
def splitWhitespace (s : String) : List String :=
  (splitWsChars [] s.data).map (fun l => ⟨l⟩)

/-- `current.chars().rev().take(overlap)...rev().collect()` — the last
`overlap` characters of `s` (all of `s` when it is shorter). -/
def takeRightChars (n : Nat) (s : String) : String :=
  ⟨(s.data.reverse.take n).reverse⟩

/-- One iteration of the `for word in text.split_whitespace()` loop shared
by `chunk_and_index` (main.rs 1078-1099) and `index_text_with_chunking`
(lib.rs 329-350): possibly emit the buffer (seeding the next one with the
last `overlap` characters when `overlap > 0`), then append the word with a
space separator.  (`"" ++ word` is written `word`.) -/
def chunkStep (chunk_size overlap : Nat) (acc : List String × String)
    (word : String) : List String × String :=
  let st :=
    if acc.2.utf8ByteSize + word.utf8ByteSize + 1 > chunk_size ∧ acc.2 ≠ "" then
      (acc.1 ++ [acc.2],
        if overlap > 0 then takeRightChars overlap acc.2 else "")
    else acc
  (st.1, if st.2 ≠ "" then st.2 ++ " " ++ word else word)

/-- The chunk list built by `chunk_and_index` (main.rs 1076-1102): run the
word loop, then push the residual buffer if non-empty. -/
def chunk_and_index_chunks (text : String) (chunk_size overlap : Nat) : List String :=
  let r := (splitWhitespace text).foldl (chunkStep chunk_size overlap) ([], "")
  if r.2 ≠ "" then r.1 ++ [r.2] else r.1

/-- `current.trim().is_empty()`: true iff every character is whitespace
(what Rust's `trim` leaves empty). -/
def allWhitespace (s : String) : Bool := s.data.all (·.isWhitespace)

/-- The chunk list built by `index_text_with_chunking` (lib.rs 326-354):
identical loop; the residual buffer is pushed when its trim is non-empty. -/
def index_text_with_chunking_chunks (text : String) (chunk_size overlap : Nat) :
    List String :=
  let r := (splitWhitespace text).foldl (chunkStep chunk_size overlap) ([], "")
  if allWhitespace r.2 then r.1 else r.1 ++ [r.2]

/-- Words joined by single spaces (the whitespace-normalized token
sequence of the spec). -/
def joinSp (ws : List String) : String :=
  match ws with
  | [] => ""
  | w :: ws => ws.foldl (fun acc x => acc ++ " " ++ x) w

/-- The char length of the words of `ws` joined with one separator after
each word; an upper bound for the loop's buffer length. -/
def joinedLen : List String → Nat
  | [] => 0
  | w :: ws => w.length + 1 + joinedLen ws

/-! ## Extraction client retry loop (crates/kb-rag/src/lib.rs 179-275)

`extract_text_via_service_bytes` posts the bytes and retries on network
errors, HTTP 429 and any 5xx, sleeping `backoff_ms` then doubling it
(`saturating_mul(2)` on `u64`).  The sequence of HTTP outcomes enters as
an explicit response list; the model returns the result together with the
list of sleeps performed.  Note that the 429/5xx arm drops the response —
`let _body = resp.text()` — without reading any header. -/

/-- One outcome of `rb.send()`: a success body, a non-success status (with
the `Retry-After` header value the response may carry — the code never
reads it), or a network error. -/
inductive HttpResp where
  | ok (body : String)
  | status (code : Nat) (retryAfterMs : Option Nat) (body : String)
  | netErr (msg : String)
  deriving DecidableEq, Repr

/-- The two error shapes of the extractor client (lib.rs 256-259 and
268-271): `ServiceUnavailable { retry_after: Some(30s) when retryable }`
and `Network`.  `noResponse` marks exhaustion of the modelled response
script (the real loop always receives another response). -/
inductive ExtractErr where
  | serviceUnavailable (statusCode : Nat) (retryAfterSecs : Option Nat)
  | network (msg : String)
  | noResponse
  deriving DecidableEq, Repr

/-- `u64::saturating_mul(2)` (lib.rs 253, 265). -/
def satMulTwo (b : Nat) : Nat := min (b * 2) (2 ^ 64 - 1)

/-- The retry loop of `extract_text_via_service_bytes` (lib.rs 218-274):
`attempt` is the attempt number (incremented at the loop head), `backoff`
the current sleep.  Retryable means status 429 or 5xx; a retry is taken
while `attempt <= retries + 1`.  Returns the outcome and the sleeps
performed, in order. -/
def extractGo (retries : Nat) :
    List HttpResp → Nat → Nat → Except ExtractErr String × List Nat
  | [], _, _ => (.error .noResponse, [])
  | r :: rest, attempt, backoff =>
    match r with
    | .ok body => (.ok body, [])
    | .status code _retryAfter _body =>
      if (code = 429 ∨ (500 ≤ code ∧ code ≤ 599)) ∧ attempt ≤ retries + 1 then
        let res := extractGo retries rest (attempt + 1) (satMulTwo backoff)
        (res.1, backoff :: res.2)
      else
        (.error (.serviceUnavailable code
          (if code = 429 ∨ (500 ≤ code ∧ code ≤ 599) then some 30 else none)), [])
    | .netErr m =>
      if attempt ≤ retries + 1 then
        let res := extractGo retries rest (attempt + 1) (satMulTwo backoff)
        (res.1, backoff :: res.2)
      else (.error (.network m), [])

/-- `extract_text_via_service_bytes` for a given `EXTRACT_RETRIES` /
`EXTRACT_RETRY_BASE_MS` configuration and response script: the loop starts
at attempt 1 with `backoff = base`. -/
def extract_text_via_service_bytes (retries base : Nat)
    (responses : List HttpResp) : Except ExtractErr String × List Nat :=
  extractGo retries responses 1 base

/-- Erase the `Retry-After` header from a response. -/
def stripRetryAfter : HttpResp → HttpResp
  | .status c _ b => .status c none b
  | r => r

theorem extractGo_retryAfter_irrel (retries : Nat) :
    ∀ (rs : List HttpResp) (attempt backoff : Nat),
      extractGo retries (rs.map stripRetryAfter) attempt backoff =
        extractGo retries rs attempt backoff := by
  intro rs
  induction rs with
  | nil => intro a b; rfl
  | cons r rest ih =>
    intro a b
    cases r with
    | ok body => rfl
    | status code ra body =>
      simp only [List.map_cons, stripRetryAfter, extractGo]
      rw [ih (a + 1) (satMulTwo b)]
    | netErr m =>
      simp only [List.map_cons, stripRetryAfter, extractGo]
      rw [ih (a + 1) (satMulTwo b)]

theorem extractGo_sleeps_geometric (retries : Nat) :
    ∀ (rs : List HttpResp) (attempt backoff : Nat),
      ∃ n, (extractGo retries rs attempt backoff).2 =
        (List.range n).map (fun i => satMulTwo^[i] backoff) := by
  intro rs
  induction rs with
  | nil => intro a b; exact ⟨0, rfl⟩
  | cons r rest ih =>
    intro a b
    cases r with
    | ok body => exact ⟨0, rfl⟩
    | status code ra body =>
      by_cases h : (code = 429 ∨ (500 ≤ code ∧ code ≤ 599)) ∧ a ≤ retries + 1
      · obtain ⟨n, hn⟩ := ih (a + 1) (satMulTwo b)
        refine ⟨n + 1, ?_⟩
        simp only [extractGo, if_pos h, hn, List.range_succ_eq_map, List.map_cons,
          Function.iterate_zero_apply, List.map_map]
        congr 1
      · exact ⟨0, by simp [extractGo, if_neg h]⟩
    | netErr m =>
      by_cases h : a ≤ retries + 1
      · obtain ⟨n, hn⟩ := ih (a + 1) (satMulTwo b)
        refine ⟨n + 1, ?_⟩
        simp only [extractGo, if_pos h, hn, List.range_succ_eq_map, List.map_cons,
          Function.iterate_zero_apply, List.map_map]
        congr 1
      · exact ⟨0, by simp [extractGo, if_neg h]⟩

/-! ## Job engine state (apps/api/src/main.rs 90-132, 2026-2077)

`Uuid` is modelled as `Nat` (only freshness and equality matter), the JSON
`payload` as an opaque `String`, and the three global maps
(`JOBS : HashMap<Uuid, Job>`, `JOB_QUEUE : Vec<Uuid>`,
`IDEMPOTENCY : HashMap<String, Uuid>`) as association lists / lists.  The
handler receives the fresh id and the clock value as parameters. -/

/-- `JobProgress` (main.rs 108-113). -/
structure JobProgress where
  total : Option Nat
  completed : Nat
  current : Option String
  deriving DecidableEq, Repr

/-- `JobResume` (main.rs 115-125); its single variant is the `pdf_glob`
checkpoint. -/
inductive JobResume where
  | pdfGlob (paths : List String) (next : Nat) (pre : String)
      (chunk_size : Nat) (overlap : Nat)
  deriving DecidableEq, Repr

/-- `Job` (main.rs 93-106). -/
structure Job where
  id : Nat
  kind : String
  payload : String
  status : String
  message : Option String
  created_at : Int
  updated_at : Int
  attempts : Nat
  idempotency_key : Option String
  progress : Option JobProgress
  resume : Option JobResume
  deriving DecidableEq, Repr

/-- First-match association-list lookup (stands in for `HashMap::get`;
keys are never duplicated by the operations modelled here). -/
def alookup {α β : Type} [DecidableEq α] (k : α) : List (α × β) → Option β
  | [] => none
  | (a, b) :: rest => if a = k then some b else alookup k rest

/-- The three global job-engine tables. -/
structure JobsState where
  jobs : List (Nat × Job)
  queue : List Nat
  idem : List (String × Nat)
  deriving DecidableEq, Repr

/-- The JSON body answered by `admin_jobs_create`: the returned `job_id`
and whether the `"idempotent": true` marker was present. -/
structure CreateResp where
  job_id : Nat
  idempotent : Bool
  deriving DecidableEq, Repr

/-- `admin_jobs_create` (main.rs 2026-2077), for an authorized request: if
the idempotency key is present and already mapped, return the mapped id at
once without touching any table; otherwise create the job record, push it
onto the queue and record the key. -/
def admin_jobs_create (st : JobsState) (fresh : Nat) (now : Int)
    (kind payload : String) (idempotency_key : Option String) :
    JobsState × CreateResp :=
  match idempotency_key.bind (fun k => alookup k st.idem) with
  | some existing => (st, ⟨existing, true⟩)
  | none =>
    let job : Job :=
      ⟨fresh, kind, payload, "pending", none, now, now, 0, idempotency_key,
        none, none⟩
    let idem := match idempotency_key with
      | some k => st.idem ++ [(k, fresh)]
      | none => st.idem
    (⟨st.jobs ++ [(fresh, job)], st.queue ++ [fresh], idem⟩, ⟨fresh, false⟩)

theorem alookup_append_of_none {β : Type} (k : String) (l l' : List (String × β))
    (h : alookup k l = none) : alookup k (l ++ l') = alookup k l' := by
  induction l with
  | nil => rfl
  | cons p rest ih =>
    obtain ⟨a, b⟩ := p
    by_cases ha : a = k
    · simp only [alookup, if_pos ha] at h; exact absurd h (by simp)
    · simp only [alookup, if_neg ha] at h ⊢
      exact ih h

theorem alookup_nat_append_of_none {β : Type} (k : Nat) (l l' : List (Nat × β))
    (h : alookup k l = none) : alookup k (l ++ l') = alookup k l' := by
  induction l with
  | nil => rfl
  | cons p rest ih =>
    obtain ⟨a, b⟩ := p
    by_cases ha : a = k
    · simp only [alookup, if_pos ha] at h; exact absurd h (by simp)
    · simp only [alookup, if_neg ha] at h ⊢
      exact ih h

/-! ## The `pdf_glob` branch of `run_job_once`
(apps/api/src/main.rs 2311-2416, `EXTRACT_URL` configured)

The glob expansion (`expand_simple_glob`) and the extraction service enter
as parameters; `chunk_and_index` side effects are recorded as the list of
`document_id`s indexed.  The runner returns the final job record, the
sequence of job states persisted by `JOB_STORE.save_all` (the initial
checkpoint, then one state per successfully extracted file) — a crash
after `k` files leaves the `k`-th entry of that sequence on disk — and the
indexed document ids. -/

/-- Rust `char::to_ascii_lowercase`. -/
def asciiLowerChar (c : Char) : Char :=
  if 'A' ≤ c ∧ c ≤ 'Z' then Char.ofNat (c.toNat + 32) else c

/-- Rust `str::to_ascii_lowercase`. -/
def asciiLower (s : String) : String := ⟨s.data.map asciiLowerChar⟩

/-- Rust `p.to_ascii_lowercase().ends_with(".pdf")` (main.rs 2365). -/
def endsWithPdf (p : String) : Bool :=
  (".pdf".data).isSuffixOf (asciiLower p).data

/-- The `for p in paths.into_iter().skip(idx)` loop (main.rs 2364-2401):
non-`.pdf` paths are skipped without bumping `idx`; for each `.pdf` path
the doc id `prefix ++ "pdf_" ++ idx` is formed, `idx` is bumped, and on
successful extraction the chunks are indexed and the job's progress and
resume checkpoint are persisted — the checkpoint storing `paths: vec![]`
(main.rs 2382-2388).  Failed extractions are logged and skipped. -/
def pdfGlobLoop (pre : String) (chunk_size overlap : Nat) (now : Int)
    (extract : String → Option String) :
    List String → Nat → Job → Job × List Job × List String
  | [], _, job => (job, [], [])
  | p :: rest, idx, job =>
    if endsWithPdf p then
      let doc_id := pre ++ "pdf_" ++ toString idx
      match extract p with
      | some _text =>
        let job' := { job with
          progress := job.progress.map (fun pr =>
            { pr with completed := idx + 1, current := some doc_id }),
          resume := some (.pdfGlob [] (idx + 1) pre chunk_size overlap),
          updated_at := now }
        let r := pdfGlobLoop pre chunk_size overlap now extract rest (idx + 1) job'
        (r.1, job' :: r.2.1, doc_id :: r.2.2)
      | none =>
        pdfGlobLoop pre chunk_size overlap now extract rest (idx + 1) job
    else
      pdfGlobLoop pre chunk_size overlap now extract rest idx job

/-- `run_job_once` on a `pdf_glob` job with `EXTRACT_URL` set
(main.rs 2332-2401): take `(paths, idx)` from the job's resume checkpoint
when present, else expand the glob with `idx = 0`; persist the initial
progress `{total: paths.len(), completed: idx}` and checkpoint
`{paths, next: idx, ...}`; then run the file loop over `paths.skip(idx)`. -/
def run_job_once_pdf_glob (globExpansion : List String) (pre : String)
    (chunk_size overlap : Nat) (now : Int) (extract : String → Option String)
    (job : Job) : Job × List Job × List String :=
  let pi :=
    match job.resume with
    | some (.pdfGlob paths next _ _ _) => (paths, next)
    | none => (globExpansion, 0)
  let job0 := { job with
    progress := some ⟨some pi.1.length, pi.2, none⟩,
    resume := some (.pdfGlob pi.1 pi.2 pre chunk_size overlap) }
  let r := pdfGlobLoop pre chunk_size overlap now extract (pi.1.drop pi.2) pi.2 job0
  (r.1, job0 :: r.2.1, r.2.2)

/-! ## Session FSM (apps/api/src/main.rs 1285-1509)

The session record, the `tool_result` handler and the `session_stream`
SSE task.  The provider's streamed completion enters as an explicit list of
typed chunks (`rig::streaming::StreamedAssistantContent`); the handler's
loop over those chunks, its event emission and its session mutation are
modelled exactly.  `chat_history` entries are modelled by the two message
shapes this code appends. -/

/-- `PendingTool` (the `pending_tool` payload). -/
structure PendingTool where
  id : String
  call_id : Option String
  name : String
  deriving DecidableEq, Repr

/-- The two `chat_history` entries the session FSM appends
(main.rs 1472-1476 and 1310-1322). -/
inductive ChatMsg where
  | assistantToolCall (id : String) (call_id : Option String)
      (name : String) (arguments : String)
  | userToolResult (tool_id : String) (call_id : Option String) (result : String)
  deriving DecidableEq, Repr

/-- `SessionState` (main.rs 329-341); `filters` kept opaque. -/
structure SessionState where
  query : String
  top_k : Nat
  filters : Option String
  chat_history : List ChatMsg
  pending_tool : Option PendingTool
  deriving DecidableEq, Repr

/-- One streamed chunk from the model
(`StreamedAssistantContent`, main.rs 1453-1504). -/
inductive StreamChunk where
  | text (s : String)
  | reasoning (s : String)
  | toolCall (id : String) (call_id : Option String) (name : String)
      (arguments : String)
  | final (payload : String)
  | err (msg : String)
  deriving DecidableEq, Repr

/-- A typed SSE event as emitted by the session stream. -/
inductive SseEvent where
  | text (s : String)
  | reasoning (s : String)
  | tool_call (data : String)
  | final (data : String)
  | error (data : String)
  deriving DecidableEq, Repr

/-- `session_tool_result` (main.rs 1304-1330): with a pending tool, append
the user tool-result entry referencing `pending_tool.id` (and `call_id`
when present), clear `pending_tool` and answer `ok`; otherwise answer
`no_pending_tool` (or `not_found`) without touching the session. -/
def session_tool_result (sess : Option SessionState) (result : String) :
    Option SessionState × String :=
  match sess with
  | none => (none, "not_found")
  | some st =>
    match st.pending_tool with
    | some p =>
      (some { st with
          chat_history := st.chat_history ++ [.userToolResult p.id p.call_id result],
          pending_tool := none },
        "ok")
    | none => (some st, "no_pending_tool")

/-- The `while let Some(chunk) = stream.next()` loop of `session_stream`
(main.rs 1453-1505): text/reasoning/final chunks are forwarded and the loop
continues; a tool call appends the assistant entry, sets `pending_tool`,
emits the `tool_call` event and breaks; an error emits `error` and breaks. -/
def sessionStreamLoop : SessionState → List StreamChunk → SessionState × List SseEvent
  | st, [] => (st, [])
  | st, chunk :: rest =>
    match chunk with
    | .text s =>
      let (st', evs) := sessionStreamLoop st rest
      (st', .text s :: evs)
    | .reasoning s =>
      let (st', evs) := sessionStreamLoop st rest
      (st', .reasoning s :: evs)
    | .final s =>
      let (st', evs) := sessionStreamLoop st rest
      (st', .final s :: evs)
    | .toolCall id cid name args =>
      ({ st with
          chat_history := st.chat_history ++ [.assistantToolCall id cid name args],
          pending_tool := some ⟨id, cid, name⟩ },
        [.tool_call (name ++ " " ++ args)])
    | .err e => (st, [.error e])

/-- `session_stream` (main.rs 1337-1509): load the session (emitting
`error not_found` when absent) and run the completion-stream loop.  Note
that the handler starts the streaming completion without inspecting
`pending_tool`. -/
def session_stream (sess : Option SessionState) (chunks : List StreamChunk) :
    Option SessionState × List SseEvent :=
  match sess with
  | none => (none, [.error "not_found"])
  | some st =>
    (some (sessionStreamLoop st chunks).1, (sessionStreamLoop st chunks).2)

theorem sessionStreamLoop_events_state_irrel (chunks : List StreamChunk) :
    ∀ st st' : SessionState,
      (sessionStreamLoop st chunks).2 = (sessionStreamLoop st' chunks).2 := by
  induction chunks with
  | nil => intro st st'; rfl
  | cons chunk rest ih =>
    intro st st'
    cases chunk <;> simp only [sessionStreamLoop] <;>
      first
        | rfl
        | exact congrArg _ (ih st st')

/-! ## Non-streaming query endpoint (apps/api/src/main.rs 637-751) -/

/-- Backend dispatch inside `query` (main.rs 738-742): `graph` goes to the
graph engine, every other mode (`hybrid`, `lexical`, `rag`, anything else)
to the shared retrieval engine.  Backend errors are carried as their
display strings. -/
def query_dispatch (mode : String) (graphResult ragResult : Except String QueryResponse) :
    Except String QueryResponse :=
  match mode with
  | "graph" => graphResult
  | _ => ragResult

/-- `query` (main.rs 637-751), on the non-rig-agent path: dispatch by
mode, then `unwrap_or_else` the error into a normal `QueryResponse` whose
`answer` is `format!("error: {e}")` with empty citations and contexts
(main.rs 744-750).  The handler's return type (`Json<QueryResponse>`)
always serializes with HTTP 200. -/
def query_handler (req_mode : Option String)
    (graphResult ragResult : Except String QueryResponse) : QueryResponse :=
  let mode := req_mode.getD "rag"
  match query_dispatch mode graphResult ragResult with
  | .ok r => r
  | .error e => ⟨"error: " ++ e, [], [], mode, 0⟩

/-! ## Cosine similarity (crates/kb-rag/src/engine.rs 219-240;
crates/kb-rag/src/rerank.rs 480-500)

`f32` arithmetic with `sqrt` is modelled over `ℝ`.  Both versions guard
empty inputs and zero norms before dividing; the engine version iterates
over `0..min(len a, len b)`, the rerank version returns 0 outright on a
length mismatch. -/

/-- The `norm_a` / `norm_b` accumulator: the sum of squares. -/
noncomputable def sumSq (l : List ℝ) : ℝ := (l.map (fun x => x * x)).sum

/-- The `dot_product` accumulator. -/
noncomputable def dotSum (a b : List ℝ) : ℝ := (a.zipWith (· * ·) b).sum

open scoped Classical

/-- `BaseRagEngine::cosine_similarity` (engine.rs 219-240): empty input ⇒
0; accumulate over the first `min(len a, len b)` components; zero norm ⇒
0; else `dot / (sqrt norm_a * sqrt norm_b)`. -/
noncomputable def cosine_similarity_engine (a b : List ℝ) : ℝ :=
  if a.isEmpty || b.isEmpty then 0
  else
    let len := min a.length b.length
    let dot := dotSum (a.take len) (b.take len)
    let na := sumSq (a.take len)
    let nb := sumSq (b.take len)
    if na = 0 ∨ nb = 0 then 0
    else dot / (Real.sqrt na * Real.sqrt nb)

/-- The free function `cosine_similarity` (rerank.rs 480-500): also
returns 0 when the lengths differ; otherwise accumulates over the whole
vectors. -/
noncomputable def cosine_similarity_rerank (a b : List ℝ) : ℝ :=
  if a.isEmpty || b.isEmpty || a.length != b.length then 0
  else
    let dot := dotSum a b
    let na := sumSq a
    let nb := sumSq b
    if na = 0 ∨ nb = 0 then 0
    else dot / (Real.sqrt na * Real.sqrt nb)

theorem sumSq_nonneg (l : List ℝ) : 0 ≤ sumSq l := by
  refine List.sum_nonneg ?_
  intro x hx
  obtain ⟨y, _, rfl⟩ := List.mem_map.mp hx
  exact mul_self_nonneg y

theorem sumSq_eq_zero_iff (l : List ℝ) : sumSq l = 0 ↔ ∀ x ∈ l, x = 0 := by
  induction l with
  | nil => simp [sumSq]
  | cons x xs ih =>
    show x * x + sumSq xs = 0 ↔ _
    rw [add_eq_zero_iff_of_nonneg (mul_self_nonneg x) (sumSq_nonneg xs),
      mul_self_eq_zero, ih]
    simp

theorem sumSq_take_eq_zero (l : List ℝ) (n : Nat) (h : sumSq l = 0) :
    sumSq (l.take n) = 0 := by
  rw [sumSq_eq_zero_iff] at h ⊢
  intro x hx
  exact h x (List.mem_of_mem_take hx)

theorem isEmpty_false_of_ne_nil {α : Type} {l : List α} (h : l ≠ []) :
    l.isEmpty = false := by
  cases l with
  | nil => exact absurd rfl h
  | cons a t => rfl

/-! ### Lemmas about the chunker -/

theorem string_ne_empty_iff (s : String) : s ≠ "" ↔ s.data ≠ [] := by
  rw [ne_eq, ne_eq, String.ext_iff]

theorem exists_mem_data_of_ne_empty (s : String) (h : s ≠ "") :
    ∃ c, c ∈ s.data :=
  List.exists_mem_of_ne_nil s.data ((string_ne_empty_iff s).mp h)

theorem data_length_pos_of_ne_empty (s : String) (h : s ≠ "") :
    0 < s.length :=
  List.length_pos.mpr ((string_ne_empty_iff s).mp h)

theorem append_word_ne_empty (s w : String) (hw : w ≠ "") : s ++ w ≠ "" := by
  rw [string_ne_empty_iff] at hw ⊢
  simp only [String.data_append]
  intro h
  exact hw (List.append_eq_nil.mp h).2

theorem splitWsChars_ne_nil :
    ∀ (cs buf : List Char), ∀ w ∈ splitWsChars buf cs, w ≠ [] := by
  intro cs
  induction cs with
  | nil =>
    intro buf w hw
    by_cases hb : buf = []
    · simp [splitWsChars, hb] at hw
    · simp only [splitWsChars, if_neg hb, List.mem_singleton] at hw
      subst hw
      simpa using hb
  | cons c cs ih =>
    intro buf w hw
    by_cases hc : c.isWhitespace
    · by_cases hb : buf = []
      · simp only [splitWsChars, if_pos hc, if_pos hb] at hw
        exact ih [] w hw
      · simp only [splitWsChars, if_pos hc, if_neg hb, List.mem_cons] at hw
        rcases hw with h | h
        · subst h; simpa using hb
        · exact ih [] w h
    · simp only [splitWsChars, if_neg hc] at hw
      exact ih (c :: buf) w hw

theorem splitWsChars_no_ws :
    ∀ (cs buf : List Char), (∀ c ∈ buf, c.isWhitespace = false) →
      ∀ w ∈ splitWsChars buf cs, ∀ c ∈ w, c.isWhitespace = false := by
  intro cs
  induction cs with
  | nil =>
    intro buf hbuf w hw
    by_cases hb : buf = []
    · simp [splitWsChars, hb] at hw
    · simp only [splitWsChars, if_neg hb, List.mem_singleton] at hw
      subst hw
      intro c hc
      exact hbuf c (List.mem_reverse.mp hc)
  | cons c cs ih =>
    intro buf hbuf w hw
    by_cases hc : c.isWhitespace
    · by_cases hb : buf = []
      · simp only [splitWsChars, if_pos hc, if_pos hb] at hw
        exact ih [] (by simp) w hw
      · simp only [splitWsChars, if_pos hc, if_neg hb, List.mem_cons] at hw
        rcases hw with h | h
        · subst h
          intro x hx
          exact hbuf x (List.mem_reverse.mp hx)
        · exact ih [] (by simp) w h
    · simp only [splitWsChars, if_neg hc] at hw
      refine ih (c :: buf) ?_ w hw
      intro x hx
      rcases List.mem_cons.mp hx with h | h
      · subst h; simpa using hc
      · exact hbuf x h

theorem splitWhitespace_words (s : String) :
    ∀ w ∈ splitWhitespace s,
      w ≠ "" ∧ ∀ c ∈ w.data, c.isWhitespace = false := by
  intro w hw
  simp only [splitWhitespace, List.mem_map] at hw
  obtain ⟨l, hl, rfl⟩ := hw
  constructor
  · rw [string_ne_empty_iff]
    exact splitWsChars_ne_nil s.data [] l hl
  · exact splitWsChars_no_ws s.data [] (by simp) l hl

theorem joinSp_append_ne_nil (A rest : List String) (h : A ≠ []) :
    joinSp (A ++ rest) =
      rest.foldl (fun acc x => acc ++ " " ++ x) (joinSp A) := by
  cases A with
  | nil => exact absurd rfl h
  | cons a t =>
    simp only [joinSp, List.cons_append, List.foldl_append]

theorem joinSp_snoc (l : List String) (x : String) :
    joinSp (l ++ [x]) = if l = [] then x else joinSp l ++ " " ++ x := by
  cases l with
  | nil => simp [joinSp]
  | cons a t =>
    rw [joinSp_append_ne_nil (a :: t) [x] (by simp)]
    simp

theorem joinSp_congr_append (A B rest : List String) (hA : A ≠ []) (hB : B ≠ [])
    (h : joinSp A = joinSp B) : joinSp (A ++ rest) = joinSp (B ++ rest) := by
  rw [joinSp_append_ne_nil A rest hA, joinSp_append_ne_nil B rest hB, h]

/-- The buffer-with-residue view of the loop state: the emitted chunks
followed by the residual buffer when non-empty. -/
def flatState (p : List String × String) : List String :=
  p.1 ++ (if p.2 = "" then [] else [p.2])

theorem chunkStep_snd_ne (cs ov : Nat) (st : List String × String) (w : String)
    (hw : w ≠ "") : (chunkStep cs ov st w).2 ≠ "" := by
  unfold chunkStep
  set st' :=
    if st.2.utf8ByteSize + w.utf8ByteSize + 1 > cs ∧ st.2 ≠ "" then
      (st.1 ++ [st.2], if ov > 0 then takeRightChars ov st.2 else "")
    else st with hst'
  by_cases h : st'.2 ≠ ""
  · simp only [if_pos h]
    exact append_word_ne_empty _ w hw
  · simp only [if_neg h]
    exact hw

theorem chunkStep_flat_joinSp (cs : Nat) (st : List String × String) (w : String)
    (hw : w ≠ "") :
    joinSp (flatState (chunkStep cs 0 st w)) = joinSp (flatState st ++ [w]) := by
  obtain ⟨chunks, cur⟩ := st
  by_cases hcond : cur.utf8ByteSize + w.utf8ByteSize + 1 > cs ∧ cur ≠ ""
  · have hcur : cur ≠ "" := hcond.2
    have hstep : chunkStep cs 0 (chunks, cur) w = (chunks ++ [cur], w) := by
      simp [chunkStep, hcond]
    rw [hstep]
    simp [flatState, hw, hcur]
  · by_cases hcur : cur = ""
    · subst hcur
      have hstep : chunkStep cs 0 (chunks, "") w = (chunks, w) := by
        simp [chunkStep, hcond]
      rw [hstep]
      simp [flatState, hw]
    · have hlt : ¬ (cur.utf8ByteSize + w.utf8ByteSize + 1 > cs) :=
        fun hl => hcond ⟨hl, hcur⟩
      have hstep : chunkStep cs 0 (chunks, cur) w = (chunks, cur ++ " " ++ w) := by
        simp [chunkStep, hlt, hcur]
      rw [hstep]
      have hjoined : cur ++ " " ++ w ≠ "" :=
        append_word_ne_empty _ w hw
      have hL : flatState (chunks, cur ++ " " ++ w) = chunks ++ [cur ++ " " ++ w] := by
        simp [flatState, hjoined]
      have hR : flatState (chunks, cur) ++ [w] = (chunks ++ [cur]) ++ [w] := by
        simp [flatState, hcur]
      rw [hL, hR]
      rw [joinSp_snoc chunks (cur ++ " " ++ w),
        joinSp_snoc (chunks ++ [cur]) w, joinSp_snoc chunks cur]
      by_cases hch : chunks = []
      · subst hch
        simp [String.append_assoc]
      · simp only [if_neg hch, if_neg (by simp : ¬chunks ++ [cur] = [])]
        simp [String.append_assoc]

theorem chunkLoop_flat_joinSp (cs : Nat) :
    ∀ (ws : List String) (st : List String × String), (∀ w ∈ ws, w ≠ "") →
      joinSp (flatState (ws.foldl (chunkStep cs 0) st)) =
        joinSp (flatState st ++ ws) := by
  intro ws
  induction ws with
  | nil => intro st _; simp
  | cons w ws ih =>
    intro st hws
    have hw : w ≠ "" := hws w (by simp)
    have hws' : ∀ x ∈ ws, x ≠ "" := fun x hx => hws x (by simp [hx])
    rw [List.foldl_cons, ih (chunkStep cs 0 st w) hws']
    have hA : flatState (chunkStep cs 0 st w) ≠ [] := by
      simp only [flatState]
      intro h
      rcases List.append_eq_nil.mp h with ⟨_, h2⟩
      rw [if_neg (chunkStep_snd_ne cs 0 st w hw)] at h2
      exact List.cons_ne_nil _ _ h2
    have hB : flatState st ++ [w] ≠ [] := by
      intro h
      rcases List.append_eq_nil.mp h with ⟨_, h2⟩
      exact List.cons_ne_nil _ _ h2
    rw [joinSp_congr_append _ _ ws hA hB (chunkStep_flat_joinSp cs st w hw)]
    simp

theorem chunkStep_snd_has_word_char (cs ov : Nat) (st : List String × String)
    (w : String) : ∀ c ∈ w.data, c ∈ (chunkStep cs ov st w).2.data := by
  intro c hc
  unfold chunkStep
  set st' :=
    if st.2.utf8ByteSize + w.utf8ByteSize + 1 > cs ∧ st.2 ≠ "" then
      (st.1 ++ [st.2], if ov > 0 then takeRightChars ov st.2 else "")
    else st with hst'
  by_cases h : st'.2 ≠ ""
  · simp only [if_pos h, String.data_append]
    simp [hc]
  · simp only [if_neg h]
    exact hc

theorem chunkLoop_snd_good (cs : Nat) :
    ∀ (ws : List String) (st : List String × String),
      (∀ w ∈ ws, w ≠ "" ∧ ∀ c ∈ w.data, c.isWhitespace = false) →
      (st.2 = "" ∨ ∃ c ∈ st.2.data, c.isWhitespace = false) →
      ((ws.foldl (chunkStep cs 0) st).2 = "" ∨
        ∃ c ∈ (ws.foldl (chunkStep cs 0) st).2.data, c.isWhitespace = false) := by
  intro ws
  induction ws with
  | nil => intro st _ h; exact h
  | cons w ws ih =>
    intro st hws _
    have hw := hws w (by simp)
    have hws' : ∀ x ∈ ws, x ≠ "" ∧ ∀ c ∈ x.data, c.isWhitespace = false :=
      fun x hx => hws x (by simp [hx])
    rw [List.foldl_cons]
    refine ih (chunkStep cs 0 st w) hws' (Or.inr ?_)
    obtain ⟨c, hc⟩ := exists_mem_data_of_ne_empty w hw.1
    exact ⟨c, chunkStep_snd_has_word_char cs 0 st w c hc, hw.2 c hc⟩

theorem chunk_and_index_chunks_eq_flat (t : String) (cs ov : Nat) :
    chunk_and_index_chunks t cs ov =
      flatState ((splitWhitespace t).foldl (chunkStep cs ov) ([], "")) := by
  unfold chunk_and_index_chunks flatState
  by_cases h : ((splitWhitespace t).foldl (chunkStep cs ov) ([], "")).2 = ""
  · simp [h]
  · simp [h]

theorem chunkFns_eq_zero_overlap (t : String) (cs : Nat) :
    index_text_with_chunking_chunks t cs 0 = chunk_and_index_chunks t cs 0 := by
  have hgood := chunkLoop_snd_good cs (splitWhitespace t) ([], "")
    (fun w hw => splitWhitespace_words t w hw) (Or.inl rfl)
  simp only [index_text_with_chunking_chunks, chunk_and_index_chunks]
  set r := (splitWhitespace t).foldl (chunkStep cs 0) ([], "") with hr
  rcases hgood with h | ⟨c, hc, hcws⟩
  · rw [h]
    simp [allWhitespace]
  · have hne : r.2 ≠ "" := by
      rw [string_ne_empty_iff]
      intro h
      rw [h] at hc
      exact absurd hc (List.not_mem_nil c)
    have hall : allWhitespace r.2 = false := by
      rw [allWhitespace, List.all_eq_false]
      exact ⟨c, hc, by simp [hcws]⟩
    simp [hall, hne]

theorem takeRightChars_of_le (n : Nat) (s : String) (h : s.length ≤ n) :
    takeRightChars n s = s := by
  unfold takeRightChars
  have : s.data.reverse.take n = s.data.reverse := by
    refine List.take_of_length_le ?_
    simpa using h
  rw [this, List.reverse_reverse]

theorem takeRightChars_length_le (n : Nat) (s : String) :
    (takeRightChars n s).length ≤ s.length := by
  show (s.data.reverse.take n).reverse.length ≤ s.data.length
  simp only [List.length_reverse, List.length_take]
  exact min_le_right _ _

theorem chunkStep_overlap_sat (cs ov1 ov2 : Nat) (st : List String × String)
    (w : String) (h1 : st.2.length ≤ ov1) (h2 : st.2.length ≤ ov2) :
    chunkStep cs ov1 st w = chunkStep cs ov2 st w := by
  unfold chunkStep
  by_cases hcond : st.2.utf8ByteSize + w.utf8ByteSize + 1 > cs ∧ st.2 ≠ ""
  · have hpos : 0 < st.2.length := data_length_pos_of_ne_empty st.2 hcond.2
    have hov1 : ov1 > 0 := lt_of_lt_of_le hpos h1
    have hov2 : ov2 > 0 := lt_of_lt_of_le hpos h2
    simp only [if_pos hcond, if_pos hov1, if_pos hov2,
      takeRightChars_of_le ov1 st.2 h1, takeRightChars_of_le ov2 st.2 h2]
  · simp only [if_neg hcond]

theorem chunkStep_snd_length (cs ov : Nat) (st : List String × String) (w : String) :
    (chunkStep cs ov st w).2.length ≤ st.2.length + 1 + w.length := by
  have hsp : (" " : String).length = 1 := rfl
  unfold chunkStep
  by_cases hcond : st.2.utf8ByteSize + w.utf8ByteSize + 1 > cs ∧ st.2 ≠ ""
  · simp only [if_pos hcond]
    by_cases hov : ov > 0
    · simp only [if_pos hov]
      by_cases hne : takeRightChars ov st.2 ≠ ""
      · rw [if_pos hne]
        simp only [String.length_append, hsp]
        have := takeRightChars_length_le ov st.2
        omega
      · rw [if_neg hne]
        omega
    · simp only [if_neg hov]
      rw [if_neg (by simp)]
      omega
  · simp only [if_neg hcond]
    by_cases hne : st.2 ≠ ""
    · rw [if_pos hne]
      simp only [String.length_append, hsp]
      omega
    · rw [if_neg hne]
      omega

theorem chunkLoop_overlap_sat (cs : Nat) :
    ∀ (ws : List String) (st : List String × String) (ov1 ov2 : Nat),
      st.2.length + joinedLen ws ≤ ov1 → st.2.length + joinedLen ws ≤ ov2 →
      ws.foldl (chunkStep cs ov1) st = ws.foldl (chunkStep cs ov2) st := by
  intro ws
  induction ws with
  | nil => intro st ov1 ov2 _ _; rfl
  | cons w ws ih =>
    intro st ov1 ov2 h1 h2
    have hb1 : st.2.length ≤ ov1 := by
      simp only [joinedLen] at h1; omega
    have hb2 : st.2.length ≤ ov2 := by
      simp only [joinedLen] at h2; omega
    rw [List.foldl_cons, List.foldl_cons,
      chunkStep_overlap_sat cs ov1 ov2 st w hb1 hb2]
    refine ih (chunkStep cs ov2 st w) ov1 ov2 ?_ ?_
    · have := chunkStep_snd_length cs ov2 st w
      simp only [joinedLen] at h1
      omega
    · have := chunkStep_snd_length cs ov2 st w
      simp only [joinedLen] at h2
      omega

/-! ### Lemmas about `deduplicate_results` -/

theorem dedupGo_idem (X : List Citation) :
    ∀ seen, dedupGo seen (dedupGo seen X) = dedupGo seen X := by
  induction X with
  | nil => intro seen; rfl
  | cons c rest ih =>
    intro seen
    by_cases h : fuseKey c ∈ seen
    · simp only [dedupGo, if_pos h]
      exact ih seen
    · simp only [dedupGo, if_neg h]
      rw [ih (fuseKey c :: seen)]

theorem dedupGo_find? (k : String) (X : List Citation) :
    ∀ seen, k ∉ seen →
      (dedupGo seen X).find? (fun c => fuseKey c == k) =
        X.find? (fun c => fuseKey c == k) := by
  induction X with
  | nil => intro seen _; rfl
  | cons c rest ih =>
    intro seen hk
    by_cases hc : fuseKey c ∈ seen
    · have hne : (fuseKey c == k) = false := by
        simp only [beq_eq_false_iff_ne, ne_eq]
        intro h; exact hk (h ▸ hc)
      simp only [dedupGo, if_pos hc, List.find?_cons, hne]
      exact ih seen hk
    · simp only [dedupGo, if_neg hc]
      by_cases hck : fuseKey c = k
      · simp [List.find?_cons, hck]
      · have hne : (fuseKey c == k) = false := by
          simp only [beq_eq_false_iff_ne, ne_eq]; exact hck
        simp only [List.find?_cons, hne]
        refine ih (fuseKey c :: seen) ?_
        intro hmem
        rcases List.mem_cons.mp hmem with h | h
        · exact hck h.symm
        · exact hk h

theorem dedupGo_sublist (X : List Citation) :
    ∀ seen, (dedupGo seen X).Sublist X := by
  induction X with
  | nil => intro seen; exact List.Sublist.refl _
  | cons c rest ih =>
    intro seen
    by_cases h : fuseKey c ∈ seen
    · simp only [dedupGo, if_pos h]
      exact (ih seen).cons c
    · simp only [dedupGo, if_neg h]
      exact (ih (fuseKey c :: seen)).cons₂ c

end Kb

namespace KbClaims
open Kb

/-- C6: chunking with `overlap = 0` and joining the emitted chunks with
single spaces reproduces the whitespace-normalized token sequence of the
input (its whitespace-separated words joined by single spaces), for both
`chunk_and_index` (main.rs 1069-1109) and `index_text_with_chunking`
(lib.rs 319-363); empty or whitespace-only input (no words) yields an
empty chunk list. -/
theorem C6_chunker_roundtrip (t : String) (cs : Nat) :
    joinSp (chunk_and_index_chunks t cs 0) = joinSp (splitWhitespace t) ∧
    joinSp (index_text_with_chunking_chunks t cs 0) = joinSp (splitWhitespace t) ∧
    (splitWhitespace t = [] →
      chunk_and_index_chunks t cs 0 = [] ∧
      index_text_with_chunking_chunks t cs 0 = []) := by
  have h1 : joinSp (chunk_and_index_chunks t cs 0) = joinSp (splitWhitespace t) := by
    rw [chunk_and_index_chunks_eq_flat]
    rw [chunkLoop_flat_joinSp cs (splitWhitespace t) ([], "")
      (fun w hw => (splitWhitespace_words t w hw).1)]
    simp [flatState]
  refine ⟨h1, ?_, ?_⟩
  · rw [chunkFns_eq_zero_overlap]
    exact h1
  · intro h
    constructor
    · simp [chunk_and_index_chunks, h]
    · simp [index_text_with_chunking_chunks, h, allWhitespace]

/-- Witness for `C6_chunker_roundtrip`: a concrete text round-trips, and a
whitespace-only input produces no chunks. -/
theorem C6_chunker_roundtrip_witness :
    joinSp (chunk_and_index_chunks "Rust is a systems language" 10 0) =
      joinSp (splitWhitespace "Rust is a systems language") ∧
    chunk_and_index_chunks "  " 10 0 = [] :=
  ⟨(C6_chunker_roundtrip "Rust is a systems language" 10).1,
    ((C6_chunker_roundtrip "  " 10).2.2 (by decide)).1⟩

/-- C7, counterexample.  The claim says a caller-supplied
`overlap ≥ chunk_size` is clamped to `chunk_size / 2`.  Neither
`chunk_and_index` (main.rs 1069-1109) nor `index_text_with_chunking`
(lib.rs 319-363) clamps: on `"aa bb cc"` with `chunk_size = 5`,
`overlap = 5` seeds the next buffer with the whole emitted buffer and
yields `["aa bb", "aa bb cc"]`, while `overlap = 5 / 2 = 2` yields
`["aa bb", "bb cc"]`. -/
theorem C7_overlap_clamp_counterexample :
    ¬ (∀ (t : String) (cs ov : Nat), cs ≤ ov →
        chunk_and_index_chunks t cs ov = chunk_and_index_chunks t cs (cs / 2)) := by
  intro h
  exact absurd (h "aa bb cc" 5 5 (le_refl 5)) (by decide)

/-- C7, amended: the chunker applies no clamp — `overlap` is used as
given, the seed being the last `overlap` characters of the emitted buffer
(the whole buffer when it is shorter).  Consequently the output saturates:
any two overlaps at least as large as the joined length of the text's
words — in particular any two large enough values `≥ chunk_size` — produce
identical chunks, but they generally differ from `overlap = chunk_size/2`. -/
theorem C7_overlap_not_clamped (t : String) (cs ov1 ov2 : Nat)
    (h1 : joinedLen (splitWhitespace t) ≤ ov1)
    (h2 : joinedLen (splitWhitespace t) ≤ ov2) :
    chunk_and_index_chunks t cs ov1 = chunk_and_index_chunks t cs ov2 ∧
    index_text_with_chunking_chunks t cs ov1 =
      index_text_with_chunking_chunks t cs ov2 := by
  have hloop := chunkLoop_overlap_sat cs (splitWhitespace t) ([], "") ov1 ov2
    (by simpa using h1) (by simpa using h2)
  constructor
  · simp only [chunk_and_index_chunks, hloop]
  · simp only [index_text_with_chunking_chunks, hloop]

/-- Witness for `C7_overlap_not_clamped`: on `"aa bb cc"` (joined word
length 9) any overlap ≥ 9 gives the same chunks. -/
theorem C7_overlap_not_clamped_witness :
    chunk_and_index_chunks "aa bb cc" 5 9 = chunk_and_index_chunks "aa bb cc" 5 100 ∧
    index_text_with_chunking_chunks "aa bb cc" 5 9 =
      index_text_with_chunking_chunks "aa bb cc" 5 100 :=
  C7_overlap_not_clamped "aa bb cc" 5 9 100 (by decide) (by decide)

/-- C10: both `cosine_similarity` functions are total and never reach the
division with a zero divisor: they return 0 when either vector is empty,
and 0 when either vector has zero norm; the engine version computes over
only the first `min(len a, len b)` components (it equals itself applied to
those prefixes), and whenever it does divide, its divisor
`sqrt norm_a * sqrt norm_b` is non-zero. -/
theorem C10_cosine_similarity_total :
    (∀ a b : List ℝ, a = [] ∨ b = [] →
      cosine_similarity_engine a b = 0 ∧ cosine_similarity_rerank a b = 0) ∧
    (∀ a b : List ℝ, sumSq a = 0 ∨ sumSq b = 0 →
      cosine_similarity_engine a b = 0 ∧ cosine_similarity_rerank a b = 0) ∧
    (∀ a b : List ℝ,
      cosine_similarity_engine a b =
        cosine_similarity_engine (a.take (min a.length b.length))
          (b.take (min a.length b.length))) ∧
    (∀ a b : List ℝ, a ≠ [] → b ≠ [] →
      sumSq (a.take (min a.length b.length)) ≠ 0 →
      sumSq (b.take (min a.length b.length)) ≠ 0 →
      Real.sqrt (sumSq (a.take (min a.length b.length))) *
          Real.sqrt (sumSq (b.take (min a.length b.length))) ≠ 0 ∧
      cosine_similarity_engine a b =
        dotSum (a.take (min a.length b.length)) (b.take (min a.length b.length)) /
          (Real.sqrt (sumSq (a.take (min a.length b.length))) *
            Real.sqrt (sumSq (b.take (min a.length b.length))))) := by
  refine ⟨?_, ?_, ?_, ?_⟩
  · intro a b h
    rcases h with h | h <;> subst h <;>
      constructor <;> simp [cosine_similarity_engine, cosine_similarity_rerank]
  · intro a b h
    by_cases ha : a = []
    · subst ha
      constructor <;> simp [cosine_similarity_engine, cosine_similarity_rerank]
    by_cases hb : b = []
    · subst hb
      constructor <;> simp [cosine_similarity_engine, cosine_similarity_rerank]
    have ha' := isEmpty_false_of_ne_nil ha
    have hb' := isEmpty_false_of_ne_nil hb
    have hor : sumSq (a.take (min a.length b.length)) = 0 ∨
        sumSq (b.take (min a.length b.length)) = 0 := by
      rcases h with h | h
      · exact Or.inl (sumSq_take_eq_zero a _ h)
      · exact Or.inr (sumSq_take_eq_zero b _ h)
    constructor
    · simp only [cosine_similarity_engine, ha', hb']
      simp [hor]
    · by_cases hlen : a.length = b.length
      · have hor' : sumSq a = 0 ∨ sumSq b = 0 := h
        simp only [cosine_similarity_rerank, ha', hb', hlen]
        simp [hor']
      · simp [cosine_similarity_rerank, ha', hb', hlen]
  · intro a b
    by_cases ha : a = []
    · subst ha
      simp [cosine_similarity_engine]
    by_cases hb : b = []
    · subst hb
      simp [cosine_similarity_engine]
    have ha' := isEmpty_false_of_ne_nil ha
    have hb' := isEmpty_false_of_ne_nil hb
    have hma : min a.length b.length ≤ a.length := min_le_left _ _
    have hmb : min a.length b.length ≤ b.length := min_le_right _ _
    have hmpos : 0 < min a.length b.length :=
      lt_min (List.length_pos.mpr ha) (List.length_pos.mpr hb)
    have hta : (a.take (min a.length b.length)).length = min a.length b.length := by
      rw [List.length_take, min_eq_left hma]
    have htb : (b.take (min a.length b.length)).length = min a.length b.length := by
      rw [List.length_take, min_eq_left hmb]
    have htane : a.take (min a.length b.length) ≠ [] := by
      intro h
      rw [← List.length_eq_zero, hta] at h
      omega
    have htbne : b.take (min a.length b.length) ≠ [] := by
      intro h
      rw [← List.length_eq_zero, htb] at h
      omega
    have hmin : min (a.take (min a.length b.length)).length
        (b.take (min a.length b.length)).length = min a.length b.length := by
      rw [hta, htb, min_self]
    have htta : (a.take (min a.length b.length)).take (min a.length b.length) =
        a.take (min a.length b.length) := by
      rw [List.take_take, min_self]
    have httb : (b.take (min a.length b.length)).take (min a.length b.length) =
        b.take (min a.length b.length) := by
      rw [List.take_take, min_self]
    simp only [cosine_similarity_engine, ha', hb',
      isEmpty_false_of_ne_nil htane, isEmpty_false_of_ne_nil htbne,
      hmin, htta, httb]
  · intro a b ha hb hna hnb
    have ha' := isEmpty_false_of_ne_nil ha
    have hb' := isEmpty_false_of_ne_nil hb
    have hcond : ¬ (sumSq (a.take (min a.length b.length)) = 0 ∨
        sumSq (b.take (min a.length b.length)) = 0) := by
      rintro (h | h)
      exacts [hna h, hnb h]
    have h1 : 0 < sumSq (a.take (min a.length b.length)) :=
      lt_of_le_of_ne (sumSq_nonneg _) (Ne.symm hna)
    have h2 : 0 < sumSq (b.take (min a.length b.length)) :=
      lt_of_le_of_ne (sumSq_nonneg _) (Ne.symm hnb)
    refine ⟨(mul_pos (Real.sqrt_pos.mpr h1) (Real.sqrt_pos.mpr h2)).ne', ?_⟩
    simp only [cosine_similarity_engine, ha', hb']
    simp [hcond]

/-- Witness for `C10_cosine_similarity_total`: the engine version on an
empty first vector, and the rerank version on a zero-norm first vector. -/
theorem C10_cosine_similarity_total_witness :
    cosine_similarity_engine [] [1] = 0 ∧
    cosine_similarity_rerank [0, 0] [1, 2] = 0 :=
  ⟨(C10_cosine_similarity_total.1 [] [1] (Or.inl rfl)).1,
    (C10_cosine_similarity_total.2.1 [0, 0] [1, 2]
      (Or.inl (by norm_num [sumSq]))).2⟩

/-- The vector backend's ranked citations `[A, B, C]` of the RRF scenario
(C4); the per-backend scores are arbitrary concrete values. -/
def c4Vector : List Citation :=
  [⟨"A", "a", none, 90, "sa"⟩, ⟨"B", "b", none, 80, "sb"⟩,
    ⟨"C", "c", none, 70, "sc"⟩]

/-- The lexical backend's ranked citations `[B, D, A]` (C4). -/
def c4Lexical : List Citation :=
  [⟨"B", "b", none, 60, "sb2"⟩, ⟨"D", "d", none, 50, "sd"⟩,
    ⟨"A", "a", none, 40, "sa2"⟩]

/-- The engine-result list `perform_hybrid_search` builds from the two
backends' citations, with the `normalized_score` values written by
`normalize_scores` left arbitrary (`n1`–`n6`): RRF ignores them (C4). -/
def c4Results (n1 n2 n3 n4 n5 n6 : ℚ) : List EngineResult :=
  [⟨⟨"A", "a", none, 90, "sa"⟩, "vector", 0, n1⟩,
   ⟨⟨"B", "b", none, 80, "sb"⟩, "vector", 1, n2⟩,
   ⟨⟨"C", "c", none, 70, "sc"⟩, "vector", 2, n3⟩,
   ⟨⟨"B", "b", none, 60, "sb2"⟩, "lexical", 0, n4⟩,
   ⟨⟨"D", "d", none, 50, "sd"⟩, "lexical", 1, n5⟩,
   ⟨⟨"A", "a", none, 40, "sa2"⟩, "lexical", 2, n6⟩]

/-- `RRF{k = 60}` configuration with equal vector/lexical weight `w` (C4). -/
def c4Cfg (w gw thr : ℚ) (topk : Nat) (snorm : ScoreNormalization) : HybridConfig :=
  ⟨w, w, gw, 2, topk, snorm, .rrf 60, thr, true⟩

/-- C4: with `RRF{k = 60}` and equal per-backend weight `w > 0`, vector
ranking `[A, B, C]` and lexical ranking `[B, D, A]` fuse — through
threshold filtering (any threshold that keeps A, here `thr ≤ w/63` keeps
all four) and `final_top_k ≥ 2` truncation — to a ranking whose first two
citations are `B` (`w/62 + w/61`) then `A` (`w/61 + w/63`).  The first
conjunct checks that `c4Results` with zeroed normalized scores is exactly
what lines 142-162 of `perform_hybrid_search` build; the ranking holds for
every assignment `n1`–`n6` that `normalize_scores` could write. -/
theorem C4_rrf_fusion_top_two
    (w gw thr : ℚ) (topk : Nat) (snorm : ScoreNormalization)
    (n1 n2 n3 n4 n5 n6 : ℚ)
    (hw : 0 < w) (hthr : thr ≤ w / 63) (htop : 2 ≤ topk) :
    c4Results 0 0 0 0 0 0 =
      engineResultsOf "vector" c4Vector ++ engineResultsOf "lexical" c4Lexical ∧
    ((hybridPipeline (c4Cfg w gw thr topk snorm)
        (c4Results n1 n2 n3 n4 n5 n6))[0]?).map Citation.document_id = some "B" ∧
    ((hybridPipeline (c4Cfg w gw thr topk snorm)
        (c4Results n1 n2 n3 n4 n5 n6))[1]?).map Citation.document_id = some "A" := by
  have h6263 : w / 63 < w / 62 :=
    div_lt_div_of_pos_left hw (by norm_num) (by norm_num)
  have h6261 : w / 62 < w / 61 :=
    div_lt_div_of_pos_left hw (by norm_num) (by norm_num)
  have hp61 : 0 < w / 61 := div_pos hw (by norm_num)
  have hp62 : 0 < w / 62 := div_pos hw (by norm_num)
  have hp63 : 0 < w / 63 := div_pos hw (by norm_num)
  have hA : groupTotal ⟨w, w, gw, 2, topk, snorm, .rrf 60, thr, true⟩
      (c4Results n1 n2 n3 n4 n5 n6) "A#a" = w / 61 + w / 63 := by
    simp [groupTotal, contribution, engineWeight, fuseKey, c4Results, c4Cfg]
    norm_num
  have hB : groupTotal ⟨w, w, gw, 2, topk, snorm, .rrf 60, thr, true⟩
      (c4Results n1 n2 n3 n4 n5 n6) "B#b" = w / 62 + w / 61 := by
    simp [groupTotal, contribution, engineWeight, fuseKey, c4Results, c4Cfg]
    norm_num
  have hC : groupTotal ⟨w, w, gw, 2, topk, snorm, .rrf 60, thr, true⟩
      (c4Results n1 n2 n3 n4 n5 n6) "C#c" = w / 63 := by
    simp [groupTotal, contribution, engineWeight, fuseKey, c4Results, c4Cfg]
    norm_num
  have hD : groupTotal ⟨w, w, gw, 2, topk, snorm, .rrf 60, thr, true⟩
      (c4Results n1 n2 n3 n4 n5 n6) "D#d" = w / 62 := by
    simp [groupTotal, contribution, engineWeight, fuseKey, c4Results, c4Cfg]
    norm_num
  have hfuse : fuse_results (c4Cfg w gw thr topk snorm) (c4Results n1 n2 n3 n4 n5 n6) =
      [⟨"B", "b", none, w / 62 + w / 61, "sb"⟩,
       ⟨"A", "a", none, w / 61 + w / 63, "sa"⟩,
       ⟨"D", "d", none, w / 62, "sd"⟩,
       ⟨"C", "c", none, w / 63, "sc"⟩] := by
    have dA : decide (thr ≤ w / 61 + w / 63) = true := decide_eq_true (by linarith)
    have dB : decide (thr ≤ w / 62 + w / 61) = true := decide_eq_true (by linarith)
    have dC : decide (thr ≤ w / 63) = true := decide_eq_true hthr
    have dD : decide (thr ≤ w / 62) = true := decide_eq_true (by linarith)
    have c1 : ¬ (w / 62 ≤ w / 63) := not_le.mpr h6263
    have c2 : w / 62 ≤ w / 62 + w / 61 := by linarith
    have c3 : ¬ (w / 62 + w / 61 ≤ w / 61 + w / 63) := not_le.mpr (by linarith)
    have c4 : w / 62 ≤ w / 61 + w / 63 := by linarith
    simp only [fuse_results, c4Cfg]
    rw [show fusionKeys (c4Results n1 n2 n3 n4 n5 n6) =
      ["A#a", "B#b", "C#c", "D#d"] from rfl]
    simp only [List.map_cons, List.map_nil]
    rw [show groupRep (c4Results n1 n2 n3 n4 n5 n6) "A#a" =
      ⟨"A", "a", none, 90, "sa"⟩ from rfl]
    rw [show groupRep (c4Results n1 n2 n3 n4 n5 n6) "B#b" =
      ⟨"B", "b", none, 80, "sb"⟩ from rfl]
    rw [show groupRep (c4Results n1 n2 n3 n4 n5 n6) "C#c" =
      ⟨"C", "c", none, 70, "sc"⟩ from rfl]
    rw [show groupRep (c4Results n1 n2 n3 n4 n5 n6) "D#d" =
      ⟨"D", "d", none, 50, "sd"⟩ from rfl]
    simp only [hA, hB, hC, hD]
    simp only [List.filter_cons, List.filter_nil, dA, dB, dC, dD, if_true]
    simp only [sortByScoreDesc, insertDesc, ge_iff_le]
    simp [insertDesc, c1, c2, c3, c4]
  have hdedup : deduplicate_results
      [(⟨"B", "b", none, w / 62 + w / 61, "sb"⟩ : Citation),
       ⟨"A", "a", none, w / 61 + w / 63, "sa"⟩,
       ⟨"D", "d", none, w / 62, "sd"⟩,
       ⟨"C", "c", none, w / 63, "sc"⟩] =
      [⟨"B", "b", none, w / 62 + w / 61, "sb"⟩,
       ⟨"A", "a", none, w / 61 + w / 63, "sa"⟩,
       ⟨"D", "d", none, w / 62, "sd"⟩,
       ⟨"C", "c", none, w / 63, "sc"⟩] := rfl
  obtain ⟨k, rfl⟩ : ∃ k, topk = k + 2 := ⟨topk - 2, by omega⟩
  have hpipe : hybridPipeline (c4Cfg w gw thr (k + 2) snorm)
      (c4Results n1 n2 n3 n4 n5 n6) =
      ⟨"B", "b", none, w / 62 + w / 61, "sb"⟩ ::
        ⟨"A", "a", none, w / 61 + w / 63, "sa"⟩ ::
        List.take k [⟨"D", "d", none, w / 62, "sd"⟩,
          ⟨"C", "c", none, w / 63, "sc"⟩] := by
    simp only [hybridPipeline, hfuse]
    rw [show (c4Cfg w gw thr (k + 2) snorm).enable_deduplication = true from rfl]
    rw [if_pos rfl]
    rw [hdedup]
    rw [show (c4Cfg w gw thr (k + 2) snorm).final_top_k = k + 2 from rfl]
    rfl
  refine ⟨rfl, ?_, ?_⟩
  · rw [hpipe]
    rfl
  · rw [hpipe]
    simp

/-- Witness for `C4_rrf_fusion_top_two`: weight 1, threshold 0, top-k 2. -/
theorem C4_rrf_fusion_top_two_witness :
    ((hybridPipeline (c4Cfg 1 0 0 2 .minMax)
        (c4Results 0 0 0 0 0 0))[0]?).map Citation.document_id = some "B" ∧
    ((hybridPipeline (c4Cfg 1 0 0 2 .minMax)
        (c4Results 0 0 0 0 0 0))[1]?).map Citation.document_id = some "A" :=
  ⟨(C4_rrf_fusion_top_two 1 0 0 2 .minMax 0 0 0 0 0 0
      (by norm_num) (by norm_num) (by norm_num)).2.1,
    (C4_rrf_fusion_top_two 1 0 0 2 .minMax 0 0 0 0 0 0
      (by norm_num) (by norm_num) (by norm_num)).2.2⟩

/-- The ten pdf paths of the crash-recovery scenario (C1). -/
def c1Paths : List String :=
  ["a0.pdf", "a1.pdf", "a2.pdf", "a3.pdf", "a4.pdf",
   "a5.pdf", "a6.pdf", "a7.pdf", "a8.pdf", "a9.pdf"]

/-- The `pdf_glob` job as the worker starts it (C1). -/
def c1Job : Job :=
  ⟨1, "pdf_glob", "{glob}", "running", none, 0, 0, 1, none, none, none⟩

/-- First run of the job: every extraction succeeds (C1). -/
def c1Run1 : Job × List Job × List String :=
  run_job_once_pdf_glob c1Paths "" 1800 0 7 (fun _ => some "text") c1Job

/-- The job state on disk when the process is killed right after the
third file's checkpoint was persisted (C1). -/
def c1Killed : Job :=
  { c1Job with
    progress := some ⟨some 10, 3, some "pdf_2"⟩,
    resume := some (.pdfGlob [] 3 "" 1800 0),
    updated_at := 7 }

/-- The re-run of the job after restart, from the persisted state (C1). -/
def c1Run2 : Job × List Job × List String :=
  run_job_once_pdf_glob c1Paths "" 1800 0 8 (fun _ => some "text") c1Killed

/-- C1.  The first run does expand the glob and record
`{paths, next = 0, prefix, chunk_size, overlap}`, and an uninterrupted run
reaches `completed = 10`; but each per-file checkpoint stores
`paths: vec![]` (main.rs 2383), so the state persisted after three files
has an empty path list, and re-running the job from it processes no
further file: the claimed resume at file 4 with final
`progress.completed = 10` does not happen — the re-run ends with
`completed = 3` and `total` reset to 0, and indexes nothing. -/
theorem C1_pdf_glob_resume_lost :
    c1Run1.2.1.head? =
      some { c1Job with
        progress := some ⟨some 10, 0, none⟩,
        resume := some (.pdfGlob c1Paths 0 "" 1800 0) } ∧
    c1Run1.1.progress = some ⟨some 10, 10, some "pdf_9"⟩ ∧
    c1Run1.2.1[3]? = some c1Killed ∧
    c1Run2.2.2 = [] ∧
    c1Run2.1.progress = some ⟨some 0, 3, none⟩ ∧
    c1Run2.1.resume = some (.pdfGlob [] 3 "" 1800 0) := by
  decide

/-- C8, counterexample.  The claim says that on HTTP 429 with a
`Retry-After` header the client's backoff before the next attempt honors
the header.  The retry arm of `extract_text_via_service_bytes`
(lib.rs 248-259) discards the response (`let _body = resp.text()`) without
reading any header and sleeps the fixed exponential schedule: with
`EXTRACT_RETRY_BASE_MS = 250` and a 429 carrying `Retry-After = 1000`, the
sleep before the next attempt is 250 ms, not 1000 ms. -/
theorem C8_retry_after_ignored_counterexample :
    ¬ (∀ (ra : Nat) (rest : List HttpResp) (retries base : Nat),
        (extract_text_via_service_bytes retries base
          (.status 429 (some ra) "" :: rest)).2.head? = some ra) := by
  intro h
  exact absurd (h 1000 [.ok "y"] 2 250) (by decide)

/-- C8, amended: the backoff does not honor `Retry-After`.  The client's
outcome and sleep sequence are unchanged when the `Retry-After` header is
erased from every response, and the sleeps are always an initial segment
of the fixed doubling schedule `base, 2·base, 4·base, …` (`u64`-saturating)
regardless of any header. -/
theorem C8_backoff_ignores_retry_after :
    (∀ (retries base attempt : Nat) (rs : List HttpResp),
      extractGo retries (rs.map stripRetryAfter) attempt base =
        extractGo retries rs attempt base) ∧
    (∀ (retries base : Nat) (rs : List HttpResp),
      ∃ n, (extract_text_via_service_bytes retries base rs).2 =
        (List.range n).map (fun i => satMulTwo^[i] base)) :=
  ⟨fun retries base attempt rs => extractGo_retryAfter_irrel retries rs attempt base,
    fun retries base rs => extractGo_sleeps_geometric retries rs 1 base⟩

/-- C5, counterexample.  The claim says deduplication retains, per
`(document_id, chunk_id)` key, the highest-scoring representative of that
key in the input.  `deduplicate_results` (hybrid.rs 350-357) in fact keeps
the *first* occurrence per key: on the two-element list below (same key,
scores 1 then 9) it keeps the score-1 citation and drops the score-9 one. -/
theorem C5_dedup_not_highest_scoring :
    ¬ (∀ c ∈ deduplicate_results
          [⟨"d", "c", none, 1, "lo"⟩, ⟨"d", "c", none, 9, "hi"⟩],
        ∀ c' ∈ ([⟨"d", "c", none, 1, "lo"⟩, ⟨"d", "c", none, 9, "hi"⟩] : List Citation),
          fuseKey c' = fuseKey c → c'.score ≤ c.score) := by
  intro h
  have h1 := h ⟨"d", "c", none, 1, "lo"⟩ (by decide) ⟨"d", "c", none, 9, "hi"⟩ (by decide) rfl
  norm_num at h1

/-- C2, counterexample.  The claim says that while `pending_tool = Some`
only `tool_result` may advance the session — opening the session stream
must not start a new model completion.  `session_stream`
(main.rs 1337-1509) never inspects `pending_tool`: on a session whose
`pending_tool` is `Some`, opening the stream still runs the completion and
forwards its chunks — here a `text` event is emitted (and the claimed
"stream does not advance the session / emits nothing" behavior fails). -/
theorem C2_stream_while_pending_counterexample :
    ¬ (∀ (st : SessionState) (chunks : List StreamChunk),
        st.pending_tool.isSome = true →
        session_stream (some st) chunks = (some st, [])) := by
  intro h
  have h1 := h ⟨"q", 5, none, [], some ⟨"t1", none, "time_now"⟩⟩
    [.text "hi"] rfl
  have h2 := congrArg Prod.snd h1
  simp [session_stream, sessionStreamLoop] at h2

/-- C2, amended: `pending_tool` gates only the `tool_result` endpoint:
`tool_result` is a no-op answering `no_pending_tool` when `pending_tool`
is `None`, and appends the tool-result entry (referencing the pending
tool's `id` and `call_id`) and clears `pending_tool` when it is `Some`.
The session-stream endpoint, however, does not check `pending_tool`: it
streams a model completion regardless, emitting exactly the same events
whether `pending_tool` is `Some` or `None`, so the
"no interleaved completions" invariant is not enforced there. -/
theorem C2_pending_tool_gates_only_tool_result :
    (∀ (st : SessionState) (result : String), st.pending_tool = none →
      session_tool_result (some st) result = (some st, "no_pending_tool")) ∧
    (∀ (st : SessionState) (p : PendingTool) (result : String),
      st.pending_tool = some p →
      session_tool_result (some st) result =
        (some { st with
            chat_history := st.chat_history ++ [.userToolResult p.id p.call_id result],
            pending_tool := none },
          "ok")) ∧
    (∀ (st : SessionState) (chunks : List StreamChunk),
      (session_stream (some st) chunks).2 =
        (session_stream (some { st with pending_tool := none }) chunks).2) := by
  refine ⟨?_, ?_, ?_⟩
  · intro st result h
    simp [session_tool_result, h]
  · intro st p result h
    simp [session_tool_result, h]
  · intro st chunks
    simp only [session_stream]
    exact sessionStreamLoop_events_state_irrel chunks st { st with pending_tool := none }

/-- Witness for `C2_pending_tool_gates_only_tool_result` at a concrete
session with no pending tool. -/
theorem C2_pending_tool_gates_only_tool_result_witness :
    session_tool_result (some ⟨"q", 5, none, [], none⟩) "r" =
      (some ⟨"q", 5, none, [], none⟩, "no_pending_tool") :=
  C2_pending_tool_gates_only_tool_result.1 ⟨"q", 5, none, [], none⟩ "r" rfl

/-- C3: creating a job with an idempotency key already present in the map
returns the existing job id with the `idempotent` marker and leaves all
three tables untouched; and for a fresh key, `enqueue(payload_a, k)`
followed by `enqueue(payload_b, k)` returns the same id, changes no state
on the second call, and the payload stored under that id is `payload_a`
(main.rs 2026-2077). -/
theorem C3_idempotent_enqueue :
    (∀ (st : JobsState) (fresh : Nat) (now : Int) (kind payload k : String) (j0 : Nat),
      alookup k st.idem = some j0 →
      admin_jobs_create st fresh now kind payload (some k) = (st, ⟨j0, true⟩)) ∧
    (∀ (st : JobsState) (f1 f2 : Nat) (now1 now2 : Int) (k1 k2 pa pb k : String),
      alookup k st.idem = none →
      alookup f1 st.jobs = none →
      (admin_jobs_create (admin_jobs_create st f1 now1 k1 pa (some k)).1
          f2 now2 k2 pb (some k)).2.job_id =
        (admin_jobs_create st f1 now1 k1 pa (some k)).2.job_id ∧
      (admin_jobs_create (admin_jobs_create st f1 now1 k1 pa (some k)).1
          f2 now2 k2 pb (some k)).1 =
        (admin_jobs_create st f1 now1 k1 pa (some k)).1 ∧
      (alookup (admin_jobs_create st f1 now1 k1 pa (some k)).2.job_id
          (admin_jobs_create (admin_jobs_create st f1 now1 k1 pa (some k)).1
            f2 now2 k2 pb (some k)).1.jobs).map Job.payload = some pa) := by
  constructor
  · intro st fresh now kind payload k j0 h
    simp [admin_jobs_create, h]
  · intro st f1 f2 now1 now2 k1 k2 pa pb k hk hf
    have hstep1 :
        admin_jobs_create st f1 now1 k1 pa (some k) =
          (⟨st.jobs ++ [(f1, ⟨f1, k1, pa, "pending", none, now1, now1, 0, some k, none, none⟩)],
            st.queue ++ [f1], st.idem ++ [(k, f1)]⟩,
            ⟨f1, false⟩) := by
      simp [admin_jobs_create, hk]
    have hk2 : alookup k (st.idem ++ [(k, f1)]) = some f1 := by
      rw [alookup_append_of_none k st.idem _ hk]
      simp [alookup]
    have hstep2 :
        admin_jobs_create (admin_jobs_create st f1 now1 k1 pa (some k)).1
            f2 now2 k2 pb (some k) =
          ((admin_jobs_create st f1 now1 k1 pa (some k)).1, ⟨f1, true⟩) := by
      rw [hstep1]
      simp [admin_jobs_create, hk2]
    refine ⟨?_, ?_, ?_⟩
    · rw [hstep2, hstep1]
    · rw [hstep2]
    · rw [hstep2, hstep1]
      simp only
      rw [alookup_nat_append_of_none f1 st.jobs _ hf]
      simp [alookup]

/-- Witness for `C3_idempotent_enqueue` on the empty state with key `K`:
the second enqueue returns id 0 again and the stored payload is the first
payload. -/
theorem C3_idempotent_enqueue_witness :
    (admin_jobs_create (admin_jobs_create ⟨[], [], []⟩ 0 5 "url" "payload_a" (some "K")).1
        1 6 "url" "payload_b" (some "K")).2.job_id =
      (admin_jobs_create ⟨[], [], []⟩ 0 5 "url" "payload_a" (some "K")).2.job_id ∧
    (alookup (admin_jobs_create ⟨[], [], []⟩ 0 5 "url" "payload_a" (some "K")).2.job_id
        (admin_jobs_create (admin_jobs_create ⟨[], [], []⟩ 0 5 "url" "payload_a" (some "K")).1
          1 6 "url" "payload_b" (some "K")).1.jobs).map Job.payload = some "payload_a" := by
  have h := C3_idempotent_enqueue.2 ⟨[], [], []⟩ 0 1 5 6 "url" "url"
    "payload_a" "payload_b" "K" rfl rfl
  exact ⟨h.1, h.2.2⟩

/-- C9: `POST /api/v1/query` always answers with a `QueryResponse` (the
handler's return type; HTTP 200): whenever the dispatched backend returns
an error `e`, the handler produces the normal response
`{answer = "error: " ++ e, citations = [], contexts = [], mode, latency_ms = 0}`
instead of a failing HTTP status (main.rs 744-750). -/
theorem C9_query_wraps_backend_errors :
    ∀ (req_mode : Option String) (g r : Except String QueryResponse) (e : String),
      query_dispatch (req_mode.getD "rag") g r = .error e →
      query_handler req_mode g r = ⟨"error: " ++ e, [], [], req_mode.getD "rag", 0⟩ := by
  intro m g r e h
  simp [query_handler, h]

/-- Witness for `C9_query_wraps_backend_errors`: default mode, retrieval
backend failing with `boom`. -/
theorem C9_query_wraps_backend_errors_witness :
    query_handler none (.ok ⟨"a", [], [], "graph", 0⟩) (.error "boom") =
      ⟨"error: boom", [], [], "rag", 0⟩ :=
  C9_query_wraps_backend_errors none (.ok ⟨"a", [], [], "graph", 0⟩) (.error "boom") "boom" rfl

/-- C5, amended: deduplication of citation lists is idempotent —
`dedup (dedup X) = dedup X` — and for each `(document_id, chunk_id)` key the
retained citation is the *first* occurrence of that key in `X` (not the
highest-scoring one); the output is a sublist of the input.  (On the fused
lists `deduplicate_results` actually receives, which are sorted by
descending score, the first occurrence is a highest-scoring one.) -/
theorem C5_dedup_idempotent_first_occurrence (X : List Citation) :
    deduplicate_results (deduplicate_results X) = deduplicate_results X ∧
    (∀ k : String,
      (deduplicate_results X).find? (fun c => fuseKey c == k) =
        X.find? (fun c => fuseKey c == k)) ∧
    (deduplicate_results X).Sublist X := by
  refine ⟨dedupGo_idem X [], fun k => dedupGo_find? k X [] ?_, dedupGo_sublist X []⟩
  exact List.not_mem_nil k

end KbClaims
